import Mathlib

/-!
Verification development for the Settings-URL tree generator (`generate.py`).

The Python source is shallowly embedded: pure functions become Lean
functions, in-place mutation of dictionaries, lists and tree nodes becomes
explicit state passing (a function returns the updated structure), and code
that can raise becomes `Option`/`Except`, or returns an explicit `raised`
flag when Python keeps the partial mutations that happened before the
exception escaped.

Python strings are modelled as Lean `String` (code-point sequences); the
CPython library helpers used by the source (`urllib.parse.urlparse`,
`parse_qs`, `quote`) are modelled character by character below.  Percent
escapes are decoded/encoded one byte at a time, which agrees with CPython
for ASCII text; none of the URLs handled by this program carry multi-byte
escapes.
-/

namespace SettingsUrls

/-! ## Python / CPython string primitives -/

/-- Characters CPython accepts inside a URL scheme after the first letter
(`scheme_chars = ascii_letters + digits + "+-."` in `urllib.parse`). -/
def isSchemeChar (c : Char) : Bool :=
  c.isAlpha || c.isDigit || c = '+' || c = '-' || c = '.'

/-- Hexadecimal digit value, if any (both cases accepted, as in CPython
`unquote`). -/
def hexVal (c : Char) : Option Nat :=
  if '0' ≤ c ∧ c ≤ '9' then some (c.toNat - '0'.toNat)
  else if 'a' ≤ c ∧ c ≤ 'f' then some (c.toNat - 'a'.toNat + 10)
  else if 'A' ≤ c ∧ c ≤ 'F' then some (c.toNat - 'A'.toNat + 10)
  else none

/-- Upper-case hexadecimal digit for a value below 16. -/
def hexDigitUpper (n : Nat) : Char :=
  if n < 10 then Char.ofNat ('0'.toNat + n) else Char.ofNat ('A'.toNat + (n - 10))

/-- Characters `urllib.parse.quote` never escapes
(`"ABC...xyz0123456789_.-~"`), before the `safe` parameter is added. -/
def isAlwaysSafe (c : Char) : Bool :=
  c.isAlpha || c.isDigit || c = '_' || c = '.' || c = '-' || c = '~'

/-- Model of `urllib.parse.quote(s)` with the default `safe="/"`: every
character outside the safe set is written as a `%XX` escape of its code
(single-byte escape, faithful to CPython on ASCII input). -/
def pyQuoteChars : List Char → List Char
  | [] => []
  | c :: rest =>
    if isAlwaysSafe c || c = '/' then c :: pyQuoteChars rest
    else '%' :: hexDigitUpper (c.toNat / 16) :: hexDigitUpper (c.toNat % 16) :: pyQuoteChars rest

/-- String-level wrapper for `pyQuoteChars`. -/
def pyQuote (s : String) : String := String.mk (pyQuoteChars s.data)

/-- Model of `urllib.parse.unquote`: decode `%XX` escapes, leaving a `%`
that does not start a valid escape untouched (single-byte decoding,
faithful to CPython on ASCII input). -/
def pyUnquoteChars : List Char → List Char
  | [] => []
  | '%' :: h1 :: h2 :: rest =>
    match hexVal h1, hexVal h2 with
    | some v1, some v2 => Char.ofNat (v1 * 16 + v2) :: pyUnquoteChars rest
    | _, _ => '%' :: pyUnquoteChars (h1 :: h2 :: rest)
  | c :: rest => c :: pyUnquoteChars rest

/-- Model of the `name.replace("+", " ")` step `parse_qsl` applies before
unquoting. -/
def plusToSpace (l : List Char) : List Char :=
  l.map (fun c => if c = '+' then ' ' else c)

/-- Model of CPython `unquote_plus` as used by `parse_qs` on names and
values: `+` becomes a space, then percent escapes are decoded. -/
def pyUnquotePlus (l : List Char) : List Char :=
  pyUnquoteChars (plusToSpace l)

/-- Split a character list at the first occurrence of `sep`, returning the
parts before and after it (`str.split(sep, 1)` / `str.partition` when the
separator occurs). -/
def splitFirst (sep : Char) : List Char → Option (List Char × List Char)
  | [] => none
  | c :: rest =>
    if c = sep then some ([], rest)
    else match splitFirst sep rest with
      | some (a, b) => some (c :: a, b)
      | none => none

/-- Model of Python `str.split(sep)` for a single-character separator:
splitting the empty string yields one empty part, exactly as in Python. -/
def splitAll (sep : Char) : List Char → List (List Char)
  | [] => [[]]
  | c :: rest =>
    match splitAll sep rest with
    | [] => [[]]
    | part :: parts => if c = sep then [] :: part :: parts else (c :: part) :: parts

/-! ## Model of `urllib.parse.urlparse` (restricted to what the source uses) -/

/-- Result of `urlparse`: the fields `get_path_segments` reads, plus the
`query` and `params` splits so the order of the splits matches CPython. -/
structure PyUrlParts where
  scheme : String
  netloc : String
  path : String
  params : String
  query : String
  fragment : String
deriving Repr, DecidableEq

/-- Scheme extraction of CPython `urlsplit`: the text before the first `:`
is the scheme if it is nonempty, starts with a letter, and contains only
scheme characters; it is lower-cased. -/
def splitScheme (l : List Char) : List Char × List Char :=
  match splitFirst ':' l with
  | none => ([], l)
  | some (before, after) =>
    match before with
    | [] => ([], l)
    | c0 :: _ =>
      if c0.isAlpha && before.all isSchemeChar then (before.map Char.toLower, after)
      else ([], l)

/-- Network-location extraction of CPython `urlsplit`: when the remainder
starts with `//`, the netloc runs until the next `/`, `?` or `#`. -/
def splitNetloc (l : List Char) : List Char × List Char :=
  match l with
  | '/' :: '/' :: rest =>
    (rest.takeWhile (fun c => c ≠ '/' && c ≠ '?' && c ≠ '#'),
     rest.dropWhile (fun c => c ≠ '/' && c ≠ '?' && c ≠ '#'))
  | _ => ([], l)

/-- Params extraction of CPython `urlparse._splitparams`: a `;` in the last
path component starts the params. -/
def splitParams (l : List Char) : List Char × List Char :=
  let start := if l.contains '/' then (l.length - (l.reverse.takeWhile (fun c => c ≠ '/')).length) else 0
  match splitFirst ';' (l.drop start) with
  | none => (l, [])
  | some (a, b) => (l.take start ++ a, b)

/-- Model of `urllib.parse.urlparse(url, allow_fragments=True)`, performing
the same splits in the same order as CPython: scheme, `//`-netloc, fragment
at the first `#`, query at the first `?`, params at the last `;`. -/
def pyUrlparse (url : String) : PyUrlParts :=
  let (scheme, rest) := splitScheme url.data
  let (netloc, rest) := splitNetloc rest
  let (rest, fragment) := match splitFirst '#' rest with
    | some (a, b) => (a, b)
    | none => (rest, [])
  let (rest, query) := match splitFirst '?' rest with
    | some (a, b) => (a, b)
    | none => (rest, [])
  let (path, params) := splitParams rest
  ⟨String.mk scheme, String.mk netloc, String.mk path,
   String.mk params, String.mk query, String.mk fragment⟩

/-! ## Model of `urllib.parse.parse_qs` -/

/-- Model of `parse_qsl(qs)` with CPython defaults (`keep_blank_values =
False`, separator `&`): empty fields, fields with no `=`, and fields with
an empty value are dropped; names and values are unquoted with
`unquote_plus`. -/
def parseQsl (l : List Char) : List (String × String) :=
  (splitAll '&' l).filterMap fun field =>
    if field = [] then none
    else match splitFirst '=' field with
      | none => none
      | some (n, v) =>
        if v = [] then none
        else some (String.mk (pyUnquotePlus n), String.mk (pyUnquotePlus v))

/-- Append a value to the entry of `k` in an association list, preserving
first-appearance key order — the grouping step of `parse_qs`. -/
def qsAppend (d : List (String × List String)) (k : String) (v : String) :
    List (String × List String) :=
  match d with
  | [] => [(k, [v])]
  | (k0, vs) :: rest =>
    if k0 = k then (k0, vs ++ [v]) :: rest else (k0, vs) :: qsAppend rest k v

/-- Model of `urllib.parse.parse_qs`: parse the pairs and group values per
name, with keys in first-appearance order (Python dict insertion order). -/
def parseQs (s : String) : List (String × List String) :=
  (parseQsl s.data).foldl (fun d p => qsAppend d p.1 p.2) []

/-- First-match lookup in an association list — Python dict indexing (keys
are unique in every dict the source builds). -/
def alookup {α : Type} (d : List (String × α)) (k : String) : Option α :=
  match d with
  | [] => none
  | (k0, v) :: rest => if k0 = k then some v else alookup rest k

/-- Python dict assignment `d[k] = v`: replace the value of the first
entry with key `k` in place (a present key keeps its position), otherwise
append the new key at the end — Python dict semantics. -/
def aset {α : Type} (d : List (String × α)) (k : String) (v : α) : List (String × α) :=
  match d with
  | [] => [(k, v)]
  | (k0, v0) :: rest => if k0 = k then (k0, v) :: rest else (k0, v0) :: aset rest k v

/-! ## The URL codec (`build_url`, `get_path_segments`) -/

/-- Model of Python `s.startswith("#")`. -/
def startsWithHash (s : String) : Bool :=
  match s.data with
  | '#' :: _ => true
  | _ => false

/-- Split a string on `/` and keep the nonempty parts — the
`for seg in part.split("/"): if len(seg) > 0: yield seg` pattern of
`get_path_segments`. -/
def slashParts (s : String) : List String :=
  (splitAll '/' s.data).filterMap fun part =>
    if part.length > 0 then some (String.mk part) else none

/-- Model of `get_path_segments(url)` (the generator is modelled as the
list of all the strings it yields; it never raises). -/
def get_path_segments (url : String) : List String :=
  let parsed := pyUrlparse url
  let middle :=
    if parsed.netloc.length > 0 then
      let parsedNetloc := parseQs parsed.netloc
      (if parsedNetloc ≠ [] then
        ((alookup parsedNetloc "root").getD []) ++
        ((alookup parsedNetloc "path").getD []).flatMap slashParts
      else [parsed.netloc]) ++ slashParts parsed.path
    else
      let parsedPath := parseQs parsed.path
      ((alookup parsedPath "root").getD []) ++
      ((alookup parsedPath "path").getD []).flatMap slashParts
  [parsed.scheme] ++ middle ++
    (if parsed.fragment.length > 0 then ["#" ++ parsed.fragment] else [])

/-- Model of `build_url(segments)`.  `none` models the `IndexError` raised
by `segments_list[1]` when a query-style URL is rebuilt from a scheme plus
a lone fragment segment.  Note the faithful quirk of the source: for the
`settings-navigation` scheme a trailing fragment is appended twice (once
inside the scheme branch, once after it). -/
def build_url (segments : List String) : Option String :=
  match segments with
  | [] => some ""
  | urlScheme :: _ =>
    let constructed := urlScheme ++ ":"
    let constructed :=
      if urlScheme = "settings-navigation" then constructed ++ "//" else constructed
    if segments.length > 1 then
      let urlFragment : Option String :=
        if startsWithHash (segments.getLastD "") then some (segments.getLastD "") else none
      let segmentsList := if urlFragment.isSome then segments.dropLast else segments
      if urlScheme = "settings-navigation" then
        let constructed := constructed ++ pyQuote (String.intercalate "/" (segmentsList.drop 1))
        let constructed := match urlFragment with
          | some f => constructed ++ f
          | none => constructed
        let constructed := match urlFragment with
          | some f => constructed ++ f
          | none => constructed
        some constructed
      else
        match segmentsList.drop 1 with
        | [] => none
        | seg1 :: restSegs =>
          let constructed := constructed ++ "root=" ++ seg1
          let constructed :=
            if segmentsList.length > 2 then
              constructed ++ "&path=" ++ pyQuote (String.intercalate "/" restSegs)
            else constructed
          let constructed := match urlFragment with
            | some f => constructed ++ f
            | none => constructed
          some constructed
    else
      some constructed

/-! ## Label entries and `sanitize_key` -/

/-- The reserved self key (`ROOT_STR = "(root)"`). -/
def ROOT_STR : String := "(root)"

/-- The placeholder for unresolvable labels (`UNKNOWN_PLACEHOLDER`). -/
def UNKNOWN_PLACEHOLDER : String := "UNKNOWN_LABEL"

/-- Device types in preference order (`DEVICE_TYPES`). -/
def DEVICE_TYPES : List String := ["iphone", "ipad", "ipod", "mac", "applevision", "other"]

/-- The Python type `LocalizationString = str | dict[str, dict[str, str]]`:
a plain string, or a mapping whose values are device-type-to-string maps
(the only key the source ever reads is `NSStringDeviceSpecificRuleType`,
but the mapping shape itself is kept general, matching the type). -/
inductive LocalizationString where
  | str (s : String)
  | dict (entries : List (String × List (String × String)))
deriving Repr, DecidableEq

/-- Python `len` on a `LocalizationString`: character count of a string,
key count of a dict (keys are unique in every dict loaded from a plist). -/
def pyLenLS : LocalizationString → Nat
  | .str s => s.length
  | .dict entries => entries.length

/-- The `for device_type in DEVICE_TYPES: if device_type in ...` loop of
`sanitize_key`, returning the first present device label. -/
def firstDeviceLabel (deviceSpecificLabels : List (String × String)) :
    List String → Option String
  | [] => none
  | deviceType :: rest =>
    match alookup deviceSpecificLabels deviceType with
    | some label => some label
    | none => firstDeviceLabel deviceSpecificLabels rest

/-- Model of `sanitize_key(key)`: a plain string is returned as is; a dict
containing `NSStringDeviceSpecificRuleType` yields the label of the first
device type of `DEVICE_TYPES` that is present; every other case falls
through to `UNKNOWN_PLACEHOLDER` (the final `return` of the source). -/
def sanitize_key : LocalizationString → String
  | .str s => s
  | .dict entries =>
    match alookup entries "NSStringDeviceSpecificRuleType" with
    | some deviceSpecificLabels =>
      match firstDeviceLabel deviceSpecificLabels DEVICE_TYPES with
      | some label => label
      | none => UNKNOWN_PLACEHOLDER
    | none => UNKNOWN_PLACEHOLDER

/-- Modelled from the spec: `resolve_label(entry, device_order)` of
section 4.2 — a plain string is returned as is; a device-variant map is
scanned along `device_order` and the first present variant returned; any
other case yields the unresolved sentinel.  Written from the words of the
spec, to be compared with `sanitize_key` above. -/
def resolve_label (entry : LocalizationString) (deviceOrder : List String) : String :=
  match entry with
  | .str s => s
  | .dict entries =>
    match alookup entries "NSStringDeviceSpecificRuleType" with
    | some variants => (deviceOrder.findSome? (fun dt => alookup variants dt)).getD UNKNOWN_PLACEHOLDER
    | none => UNKNOWN_PLACEHOLDER

/-! ## The merge engine (`merge_into`) -/

/-- The values a localized URL tree stores: a URL string, a list of URL
strings, or a nested sub-dictionary (Python `str | list | dict`). -/
inductive Value where
  | str (s : String)
  | list (l : List String)
  | dict (d : List (String × Value))

/-- Insertion sort on strings; Python `list.sort()` on a list of strings
produces exactly the same result (the unique ascending reordering, since
equal strings are identical). -/
def insertSorted (x : String) : List String → List String
  | [] => [x]
  | y :: rest => if x ≤ y then x :: y :: rest else y :: insertSorted x rest

/-- Model of `list.sort()` on a list of strings. -/
def pySort (l : List String) : List String := l.foldr insertSorted []

mutual
/-- Model of Python `==` on the stored values.  For strings and lists this
is structural equality; for dicts Python compares key sets and values
(order-insensitive), which this captures by length plus per-key lookup —
coinciding with Python on every dict with unique keys, the only dicts the
source ever builds. -/
def pyEq : Value → Value → Bool
  | .str a, .str b => a == b
  | .list a, .list b => a == b
  | .dict a, .dict b => a.length == b.length && pyEqEntries a b
  | _, _ => false

/-- Every entry of `a` is present in `b` with a `pyEq`-equal value. -/
def pyEqEntries : List (String × Value) → List (String × Value) → Bool
  | [], _ => true
  | (k, v) :: rest, b =>
    (match alookup b k with
     | some v2 => pyEq v v2
     | none => false) && pyEqEntries rest b
end

/-- Size measure used for the termination of the merge functions. -/
def sizeV : Value → Nat
  | .str _ => 1
  | .list _ => 1
  | .dict d => 2 + sizeD d
where
  /-- Size of a dictionary entry list. -/
  sizeD : List (String × Value) → Nat
  | [] => 0
  | (_, v) :: rest => 1 + sizeV v + sizeD rest

/-- A looked-up value is smaller than the dictionary containing it. -/
theorem sizeV_of_alookup {d : List (String × Value)} {k : String} {v : Value}
    (h : alookup d k = some v) : sizeV v < 1 + sizeV.sizeD d := by
  induction d with
  | nil => simp [alookup] at h
  | cons hd tl ih =>
    obtain ⟨k0, v0⟩ := hd
    simp only [alookup] at h
    split at h
    · cases h; simp [sizeV.sizeD]; omega
    · have := ih h; simp [sizeV.sizeD]; omega

mutual
/-- Model of `merge_into(dictionary, key, value)`.  The source mutates
`dictionary` in place (and in some branches mutates the existing list or
the new list before storing it); the model returns the dictionary after
the call.  A present key keeps its position (Python dict semantics), and
the combination of the existing and the new value is `mergeValue`. -/
def mergeInto (dictionary : List (String × Value)) (key : String) (value : Value) :
    List (String × Value) :=
  match h : alookup dictionary key with
  | some existingValue => aset dictionary key (mergeValue existingValue value)
  | none => dictionary ++ [(key, value)]
termination_by (sizeV value, 1 + sizeV.sizeD dictionary)
decreasing_by
  have := sizeV_of_alookup h
  exact Prod.Lex.right _ this

/-- The value stored at `key` after `merge_into` finds `existingValue`
there: the branch structure follows the source line by line —
`if existing_value == value: return` and then the nine type cases. -/
def mergeValue (existingValue value : Value) : Value :=
  if pyEq existingValue value then existingValue
  else
    match existingValue, value with
    | .str s, .dict d => .dict (mergeInto d ROOT_STR (.str s))
    | .str s, .str t => .list (pySort [s, t])
    | .str s, .list l => .list (pySort (l ++ [s]))
    | .list l, .dict d => .dict (mergeInto d ROOT_STR (.list l))
    | .list l, .str t => .list (pySort (l ++ [t]))
    | .list l, .list m => .list (pySort (l ++ m))
    | .dict e, .dict d => .dict (mergeEntriesInto e d)
    | .dict e, .str t => .dict (mergeInto e ROOT_STR (.str t))
    | .dict e, .list m => .dict (mergeInto e ROOT_STR (.list m))
termination_by (sizeV value, sizeV existingValue)
decreasing_by
  all_goals first
    | exact Prod.Lex.right _ (by simp only [sizeV, sizeV.sizeD]; omega)
    | exact Prod.Lex.left _ _ (by simp only [sizeV, sizeV.sizeD]; omega)

/-- The `for key, sub_value in value.items(): merge_into(existing_value,
key, sub_value)` loop of the dict/dict case. -/
def mergeEntriesInto (existing : List (String × Value)) :
    List (String × Value) → List (String × Value)
  | [] => existing
  | (k, subValue) :: rest => mergeEntriesInto (mergeInto existing k subValue) rest
termination_by entries => (sizeV.sizeD entries, 0)
decreasing_by
  all_goals exact Prod.Lex.left _ _ (by simp only [sizeV, sizeV.sizeD]; omega)
end

/-- A string is reachable inside a stored value: it is the value itself,
an element of a stored list, or reachable inside the nested sub-mapping
stored under the reserved `"(root)"` self key.  This is the reachability
notion of the "merge never loses data" property. -/
def reaches (s : String) (v : Value) : Bool :=
  match v with
  | .str t => s == t
  | .list l => l.contains s
  | .dict d =>
    match h : alookup d ROOT_STR with
    | some v0 => reaches s v0
    | none => false
termination_by sizeV v
decreasing_by
  have := sizeV_of_alookup h
  simp only [sizeV]; omega

/-! ## Settings URL records and the URL tree -/

/-- A URL correction entry (`url_corrections` values): optional replacement
`url` and `label_id`. -/
structure Correction where
  url : Option String := none
  label_id : Option String := none
deriving Repr, DecidableEq

/-- The `RawSettingsURL` class: a Settings URL with its label identifier,
provenance, per-locale labels and optional alias list.  (`manifest_path`
is an opaque provenance string; `Path` objects are modelled as strings.) -/
structure RawSettingsURL where
  url : String
  label_id : String
  manifest_path : String
  localized_labels : List (String × LocalizationString) := []
  aliases : Option (List String) := none
deriving Repr, DecidableEq

/-- The `RawSettingsURL.__init__` constructor: corrections are applied to
`url` and `label_id` exactly once, before any further processing. -/
def mkRawSettingsURL (url_corrections : List (String × Correction))
    (url label_id manifest_path : String) : RawSettingsURL :=
  match alookup url_corrections url with
  | some corr => ⟨corr.url.getD url, corr.label_id.getD label_id, manifest_path, [], none⟩
  | none => ⟨url, label_id, manifest_path, [], none⟩

/-- The `RawSettingsURL.add_alias` method, restricted to the record: the
alias is appended to the alias list (created on first use).  The method
also updates two process-wide side tables (`alias_localizations` and
`urls_to_override`); that bookkeeping lives outside the tree and outside
every claim below, so it is not threaded through the model. -/
def RawSettingsURL.addAliasUrl (r : RawSettingsURL) (url : String) : RawSettingsURL :=
  { r with aliases := some ((r.aliases.getD []) ++ [url]) }

/-- The `URLTree` class: an optional owning record and the children map,
keyed by path segment, in insertion order (Python dict order). -/
inductive URLTree where
  | mk (root : Option RawSettingsURL) (urls : List (String × URLTree))

/-- The owning record of the node. -/
def URLTree.root : URLTree → Option RawSettingsURL
  | .mk r _ => r

/-- The children of the node. -/
def URLTree.urls : URLTree → List (String × URLTree)
  | .mk _ u => u

mutual
/-- Model of `URLTree.add_alias(url, alias, recursive, path_segments_rev)`.
The result is the tree after the call together with a flag telling whether
an exception escaped (Python keeps all mutations made before the raise, so
the partially updated tree is returned alongside the flag).  The remaining
walk segments are passed in forward order; the Python list holds them
reversed purely so that `pop()` takes the next (first) segment cheaply, as
the source comments explain, so `pop()` is head consumption here. -/
def URLTree.addAlias : URLTree → String → String → Bool → Option (List String) →
    URLTree × Bool
  | .mk root urls, url, aliasUrl, recursive, pathSegments =>
    match root with
    | some rc =>
      if rc.url = url then
        let rc := rc.addAliasUrl aliasUrl
        if recursive then
          let aliasedUrlSegments := get_path_segments url
          let aliasSegments := get_path_segments aliasUrl
          let (urls2, raised) := addAliasChildren urls aliasedUrlSegments aliasSegments recursive
          (.mk (some rc) urls2, raised)
        else
          (.mk (some rc) urls, false)
      else
        -- Not-found branch: compute the remaining segments if this is the
        -- outermost call, pop the next one (an exhausted list means the
        -- `pop()` raises an `IndexError`, leaving the tree unmodified), and
        -- step into the child under that segment if it exists.
        match pathSegments.getD (get_path_segments url) with
        | [] => (.mk (some rc) urls, true)
        | nextSegment :: restSegments =>
          let (urls2, raised) := addAliasInChild urls nextSegment url aliasUrl recursive restSegments
          (.mk (some rc) urls2, raised)
    | none =>
      -- Same not-found branch for a node with no owning record.
      match pathSegments.getD (get_path_segments url) with
      | [] => (.mk none urls, true)
      | nextSegment :: restSegments =>
        let (urls2, raised) := addAliasInChild urls nextSegment url aliasUrl recursive restSegments
        (.mk none urls2, raised)

/-- The `if next_segment in self.urls: self.urls[next_segment].add_alias(...)`
step, walking the children list for the segment. -/
def addAliasInChild (urls : List (String × URLTree)) (seg url aliasUrl : String)
    (recursive : Bool) (restSegments : List String) :
    List (String × URLTree) × Bool :=
  match urls with
  | [] => ([], false)
  | (k, child) :: rest =>
    if k = seg then
      let (child2, raised) := child.addAlias url aliasUrl recursive (some restSegments)
      ((k, child2) :: rest, raised)
    else
      let (rest2, raised) := addAliasInChild rest seg url aliasUrl recursive restSegments
      ((k, child) :: rest2, raised)

/-- The recursive-propagation loop of `add_alias`: for each child in order,
rebuild the two URLs extended by the child key and alias the child.  Either
`build_url` call can raise (`none`); Python evaluates the arguments before
the call and propagates the exception, keeping the updates already made to
earlier children, which the returned flag records. -/
def addAliasChildren (urls : List (String × URLTree))
    (aliasedUrlSegments aliasSegments : List String) (recursive : Bool) :
    List (String × URLTree) × Bool :=
  match urls with
  | [] => ([], false)
  | (urlKey, childTree) :: rest =>
    match build_url (aliasedUrlSegments ++ [urlKey]) with
    | none => ((urlKey, childTree) :: rest, true)
    | some childUrl =>
      match build_url (aliasSegments ++ [urlKey]) with
      | none => ((urlKey, childTree) :: rest, true)
      | some childAlias =>
        let (child2, raised) := childTree.addAlias childUrl childAlias recursive none
        if raised then ((urlKey, child2) :: rest, true)
        else
          let (rest2, raised2) := addAliasChildren rest aliasedUrlSegments aliasSegments recursive
          ((urlKey, child2) :: rest2, raised2)
end

mutual
/-- No node of the tree is owned by a record whose `url` equals `u` (the
hypothesis of the alias-silent-no-op claim). -/
def ownsNone (u : String) : URLTree → Bool
  | .mk root urls =>
    (match root with
     | some rc => rc.url ≠ u
     | none => true) && ownsNoneChildren u urls

/-- `ownsNone` over a children list. -/
def ownsNoneChildren (u : String) : List (String × URLTree) → Bool
  | [] => true
  | (_, child) :: rest => ownsNone u child && ownsNoneChildren u rest
end

mutual
/-- Model of `URLTree.find_missing(segments)`: the list of pairs the
generator yields, together with a flag telling whether the traversal ended
in an exception (`build_url` raising on the synthesized URL); the pairs
yielded before the raise are kept. -/
def URLTree.findMissing : URLTree → List String → List (String × URLTree) × Bool
  | .mk root urls, segments =>
    if root.isNone && segments.length > 1 then
      match build_url segments with
      | none => ([], true)
      | some u =>
        let (rest, raised) := findMissingChildren urls segments
        ((u, .mk root urls) :: rest, raised)
    else
      findMissingChildren urls segments

/-- The `for key, subtree in list(self.urls.items())` loop of
`find_missing`: each child is visited with its segment appended (the
Python `append`/`pop` pair nets to passing `segments + [key]`). -/
def findMissingChildren : List (String × URLTree) → List String →
    List (String × URLTree) × Bool
  | [], _ => ([], false)
  | (key, subtree) :: rest, segments =>
    let (ys, raised) := subtree.findMissing (segments ++ [key])
    if raised then (ys, true)
    else
      let (ys2, raised2) := findMissingChildren rest segments
      (ys ++ ys2, raised2)
end

mutual
/-- Every node of the tree paired with the segment path that reaches it,
in preorder — the traversal order of `find_missing`.  This is the
specification-side enumeration the `find_missing` claim is stated with. -/
def allNodes : URLTree → List String → List (List String × URLTree)
  | .mk root urls, p => (p, .mk root urls) :: allNodesChildren urls p

/-- `allNodes` over a children list. -/
def allNodesChildren : List (String × URLTree) → List String →
    List (List String × URLTree)
  | [], _ => []
  | (k, child) :: rest, p => allNodes child (p ++ [k]) ++ allNodesChildren rest p
end

/-! ## The root-flattening special case -/

/-- Python `d.update(new)` on trees: set every entry of `new`, in order. -/
def treeDictUpdate (d new : List (String × URLTree)) : List (String × URLTree) :=
  new.foldl (fun acc p => aset acc p.1 p.2) d

/-- Python `del d[k]` on trees: remove the binding of `k` (keys are unique
in every children dict the source builds, so removing every binding of `k`
is the same removal). -/
def treeDictDel (d : List (String × URLTree)) (k : String) : List (String × URLTree) :=
  match d with
  | [] => []
  | (k0, v0) :: rest => if k0 = k then treeDictDel rest k else (k0, v0) :: treeDictDel rest k

/-- Model of the root-flattening block at the end of the script: if the
tree has a `prefs` child and that node has a `ROOT` child, hoist the
children of `ROOT` into `prefs` (`prefs_scheme.urls.update(root_root.urls)`)
and delete the `ROOT` entry.  The in-place mutation of the `prefs` node is
returned as an updated tree. -/
def flattenRootSpecialCase (tree : URLTree) : URLTree :=
  match alookup tree.urls "prefs" with
  | none => tree
  | some prefsScheme =>
    match alookup prefsScheme.urls "ROOT" with
    | none => tree
    | some rootRoot =>
      let prefsUrls := treeDictDel (treeDictUpdate prefsScheme.urls rootRoot.urls) "ROOT"
      .mk tree.root (aset tree.urls "prefs" (.mk prefsScheme.root prefsUrls))

/-! ## Bundle label assignment and overrides -/

/-- Per-manifest string tables: locale identifier to (string identifier to
localization entry) — the `manifest_strings` dict of `Bundle.load` and the
`strings` attribute of `Manifest`. -/
def ManifestStrings : Type := List (String × List (String × LocalizationString))

/-- The inner loop of the label-assignment pass of `Bundle.load` (lines
302-307): for one URL record, scan every locale of the manifest strings;
when the label id is present, raise if the entry has Python length zero,
otherwise store it under the locale. -/
def assignLabelsToUrl (url : RawSettingsURL) : ManifestStrings →
    Except String RawSettingsURL
  | [] => .ok url
  | (locale, localeStrs) :: rest =>
    match alookup localeStrs url.label_id with
    | some entry =>
      if pyLenLS entry = 0 then
        .error ("Empty label for URL " ++ url.url ++ ", locale " ++ locale ++
          ". Please adjust overrides as necessary.")
      else
        assignLabelsToUrl
          { url with localized_labels := aset url.localized_labels locale entry } rest
    | none => assignLabelsToUrl url rest

/-- The label-assignment pass of `Bundle.load` over the URL list of one
manifest (`for url in manifest.urls:`). -/
def assignLabels (urls : List RawSettingsURL) (manifestStrings : ManifestStrings) :
    Except String (List RawSettingsURL) :=
  match urls with
  | [] => .ok []
  | url :: rest =>
    match assignLabelsToUrl url manifestStrings with
    | .error e => .error e
    | .ok url2 =>
      match assignLabels rest manifestStrings with
      | .error e => .error e
      | .ok rest2 => .ok (url2 :: rest2)

/-- The override descriptor consumed by `add_override` (a JSON object with
`url` plus either `label_id` and `manifest`, or an inline `label` map). -/
structure OverrideDesc where
  url : String
  label_id : Option String := none
  manifest : Option String := none
  label : Option (List (String × LocalizationString)) := none
deriving Repr, DecidableEq

/-- The `for lang, lang_localizations in override_url_manifest.strings.items()`
loop of `add_override`: copy only the locales where the label id exists. -/
def overrideLabelsFromManifest (labelId : String)
    (labels : List (String × LocalizationString)) : ManifestStrings →
    List (String × LocalizationString)
  | [] => labels
  | (lang, langLocalizations) :: rest =>
    match alookup langLocalizations labelId with
    | some entry => overrideLabelsFromManifest labelId (aset labels lang entry) rest
    | none => overrideLabelsFromManifest labelId labels rest

/-- Model of `add_override(override)` up to the record construction (the
final `tree.add_url(override_url)` inserts the result into the global
tree).  `none` models the `KeyError` raised by `override["manifest"]`,
`manifests[...]` or `override["label"]` when the expected key is absent;
note that no emptiness check of any label is performed here. -/
def add_override (url_corrections : List (String × Correction))
    (manifests : List (String × ManifestStrings)) (override : OverrideDesc) :
    Option RawSettingsURL :=
  let overrideLabelId := override.label_id
  let manifestPathStr := match override.manifest with
    | some m => m ++ ".plist"
    | none => ""
  let overrideUrl := mkRawSettingsURL url_corrections override.url
    (overrideLabelId.getD "") manifestPathStr
  match overrideLabelId with
  | some labelId =>
    match override.manifest with
    | none => none
    | some manifestKey =>
      match alookup manifests manifestKey with
      | none => none
      | some manifestStrings =>
        some { overrideUrl with
          localized_labels :=
            overrideLabelsFromManifest labelId overrideUrl.localized_labels manifestStrings }
  | none =>
    match override.label with
    | some label => some { overrideUrl with localized_labels := label }
    | none => none

/-! ## Association-list lemmas (Python dict semantics) -/

theorem alookup_aset_self {α : Type} (d : List (String × α)) (k : String) (v : α) :
    alookup (aset d k v) k = some v := by
  induction d with
  | nil => simp [aset, alookup]
  | cons hd tl ih =>
    obtain ⟨k0, v0⟩ := hd
    by_cases h : k0 = k <;> simp [aset, alookup, h, ih]

theorem alookup_aset_other {α : Type} (d : List (String × α)) (k k' : String) (v : α)
    (h : k' ≠ k) : alookup (aset d k v) k' = alookup d k' := by
  induction d with
  | nil => simp [aset, alookup, Ne.symm h]
  | cons hd tl ih =>
    obtain ⟨k0, v0⟩ := hd
    by_cases h0 : k0 = k
    · simp [aset, alookup, h0, Ne.symm h]
    · simp [aset, alookup, h0, ih]

theorem aset_eq_self {α : Type} {d : List (String × α)} {k : String} {v : α}
    (h : alookup d k = some v) : aset d k v = d := by
  induction d with
  | nil => simp [alookup] at h
  | cons hd tl ih =>
    obtain ⟨k0, v0⟩ := hd
    by_cases h0 : k0 = k
    · rw [alookup, if_pos h0] at h
      injection h with hv
      subst hv
      simp [aset, h0]
    · rw [alookup, if_neg h0] at h
      simp [aset, h0, ih h]

theorem alookup_append_of_none {α : Type} {d : List (String × α)} {k : String}
    (h : alookup d k = none) (v : α) : alookup (d ++ [(k, v)]) k = some v := by
  induction d with
  | nil => simp [alookup]
  | cons hd tl ih =>
    obtain ⟨k0, v0⟩ := hd
    by_cases h0 : k0 = k
    · simp [alookup, h0] at h
    · simp only [alookup, if_neg h0] at h
      simp [alookup, h0, ih h]

theorem mem_aset {α : Type} {d : List (String × α)} {k : String} {v : α}
    {p : String × α} (h : p ∈ aset d k v) : p ∈ d ∨ p = (k, v) := by
  induction d with
  | nil =>
    simp only [aset, List.mem_singleton] at h
    right
    exact h
  | cons hd tl ih =>
    obtain ⟨k0, v0⟩ := hd
    by_cases h0 : k0 = k
    · simp only [aset, if_pos h0, List.mem_cons] at h
      rcases h with h1 | h1
      · right
        rw [h1, h0]
      · left
        exact List.mem_cons_of_mem _ h1
    · simp only [aset, if_neg h0, List.mem_cons] at h
      rcases h with h1 | h1
      · left
        simp [h1]
      · rcases ih h1 with h2 | h2
        · left
          exact List.mem_cons_of_mem _ h2
        · right
          exact h2

/-! ## Sorting lemmas -/

theorem mem_insertSorted {x y : String} {l : List String} :
    y ∈ insertSorted x l ↔ y = x ∨ y ∈ l := by
  induction l with
  | nil => simp [insertSorted]
  | cons hd tl ih =>
    by_cases h : x ≤ hd
    · simp [insertSorted, h]
    · simp [insertSorted, h, ih]
      tauto

theorem mem_pySort {x : String} {l : List String} : x ∈ pySort l ↔ x ∈ l := by
  induction l with
  | nil => simp [pySort]
  | cons hd tl ih =>
    simp only [pySort, List.foldr] at *
    rw [mem_insertSorted, ih]
    simp

/-! ## Claims C1 and C10: the URL codec -/

/-- C10 (confirmed): `build_url` is not total — on the segment sequence
`["prefs", "#frag"]`, which `get_path_segments` produces for the URL
`"prefs:#frag"`, the fragment is popped, the list shrinks to one element,
and `segments_list[1]` raises an `IndexError` (modelled as `none`). -/
theorem c10_build_url_not_total :
    get_path_segments "prefs:#frag" = ["prefs", "#frag"] ∧
    build_url ["prefs", "#frag"] = none := by
  constructor <;> decide

/-- C1 (code bug): the codec round-trip contract fails for path-style URLs
with a fragment.  `build_url` appends the trailing fragment twice in the
`settings-navigation` branch (once inside the branch, once after it), so
re-parsing the rebuilt URL yields the fragment segment `"#f#f"` instead of
`"#f"`: `get_path_segments (build_url (get_path_segments u))` differs from
`get_path_segments u` at `u = "settings-navigation://a#f"`. -/
theorem c1_roundtrip_fails_for_path_style_fragment :
    get_path_segments "settings-navigation://a#f" = ["settings-navigation", "a", "#f"] ∧
    build_url ["settings-navigation", "a", "#f"] = some "settings-navigation://a#f#f" ∧
    get_path_segments "settings-navigation://a#f#f" = ["settings-navigation", "a", "#f#f"] ∧
    (["settings-navigation", "a", "#f#f"] : List String) ≠ ["settings-navigation", "a", "#f"] := by
  refine ⟨by decide, by decide, by decide, by decide⟩

/-! ## Claim C9: `sanitize_key` versus the spec-side `resolve_label` -/

theorem firstDeviceLabel_eq_findSome (labels : List (String × String))
    (devs : List String) :
    firstDeviceLabel labels devs = devs.findSome? (fun dt => alookup labels dt) := by
  induction devs with
  | nil => simp [firstDeviceLabel]
  | cons hd tl ih =>
    rw [List.findSome?_cons]
    simp only [firstDeviceLabel]
    cases alookup labels hd <;> simp [ih]

/-- C9 (confirmed): `sanitize_key` agrees everywhere with the
specification-side `resolve_label` applied to the fixed `DEVICE_TYPES`
order: a plain string is returned as is, a recognised device-variant map
yields the first present device type in the fixed order, and every other
shape yields the `UNKNOWN_LABEL` sentinel; being a total Lean function it
never raises. -/
theorem c9_sanitize_key_total_and_ordered (entry : LocalizationString) :
    sanitize_key entry = resolve_label entry DEVICE_TYPES := by
  cases entry with
  | str s => rfl
  | dict entries =>
    simp only [sanitize_key, resolve_label, firstDeviceLabel_eq_findSome]
    cases alookup entries "NSStringDeviceSpecificRuleType" with
    | none => rfl
    | some variants =>
      cases h2 : DEVICE_TYPES.findSome? (fun dt => alookup variants dt) <;> simp [h2]

/-! ## Claim C3: merge idempotence -/

/-- C3 (counterexample): merging the same string twice into the same key is
not idempotent, and stored lists can hold duplicates.  Starting from
`c = {"k": "a"}`, the first `merge_into(c, "k", "b")` stores the sorted
list `["a", "b"]`, and the second, identical call appends `"b"` again
without any duplicate check, leaving `["a", "b", "b"]`. -/
theorem c3_counterexample :
    mergeInto [("k", Value.str "a")] "k" (.str "b") = [("k", Value.list ["a", "b"])] ∧
    mergeInto [("k", Value.list ["a", "b"])] "k" (.str "b")
      = [("k", Value.list ["a", "b", "b"])] ∧
    Value.list ["a", "b", "b"] ≠ Value.list ["a", "b"] ∧
    ¬ (["a", "b", "b"] : List String).Nodup := by
  refine ⟨?_, ?_, by simp, by decide⟩
  · simp [mergeInto, mergeValue, pyEq, alookup, aset, pySort, insertSorted]
    decide
  · simp [mergeInto, mergeValue, pyEq, alookup, aset, pySort, insertSorted]
    decide

/-- Unfolding of `merge_into` on an absent key: the value is stored
directly (a fresh dict key is appended at the end). -/
theorem mergeInto_of_none {d : List (String × Value)} {k : String} (v : Value)
    (h : alookup d k = none) : mergeInto d k v = d ++ [(k, v)] := by
  rw [mergeInto.eq_def]
  split
  · rename_i e he
    rw [h] at he
    cases he
  · rfl

/-- Unfolding of `merge_into` on a present key: the stored value becomes
the combination of the existing and the new value. -/
theorem mergeInto_of_some {d : List (String × Value)} {k : String} {e : Value} (v : Value)
    (h : alookup d k = some e) : mergeInto d k v = aset d k (mergeValue e v) := by
  rw [mergeInto.eq_def]
  split
  · rename_i e2 he
    rw [h] at he
    cases he
    rfl
  · rename_i he
    rw [h] at he
    cases he

/-- Unfolding of `mergeValue` on two `pyEq`-equal values: the guard
`if existing_value == value: return` fires. -/
theorem mergeValue_self {v : Value} (h : pyEq v v = true) : mergeValue v v = v := by
  rw [mergeValue.eq_def]
  simp [h]

/-- C3 (corrected): idempotence does hold when the key is fresh — the
first merge stores `v` itself, and the second call hits the equality guard
and returns with no change (for any value that Python compares equal to
itself, which every value with unique dict keys is). -/
theorem c3_merge_idempotent_on_fresh_key (c : List (String × Value)) (k : String)
    (v : Value) (hfresh : alookup c k = none) (hself : pyEq v v = true) :
    mergeInto (mergeInto c k v) k v = mergeInto c k v := by
  rw [mergeInto_of_none v hfresh]
  have h2 : alookup (c ++ [(k, v)]) k = some v := alookup_append_of_none hfresh v
  rw [mergeInto_of_some v h2, mergeValue_self hself]
  exact aset_eq_self h2

/-- Witness for `c3_merge_idempotent_on_fresh_key` at a concrete input. -/
theorem c3_witness :
    (alookup ([] : List (String × Value)) "k" = none ∧ pyEq (.str "x") (.str "x") = true) ∧
    mergeInto (mergeInto [] "k" (.str "x")) "k" (.str "x") = mergeInto [] "k" (.str "x") :=
  ⟨⟨rfl, rfl⟩,
   c3_merge_idempotent_on_fresh_key [] "k" (.str "x") rfl rfl⟩

/-! ## Claim C8: root flattening -/

theorem alookup_eq_none_of_not_mem {α : Type} {d : List (String × α)} {k : String}
    (h : k ∉ d.map Prod.fst) : alookup d k = none := by
  induction d with
  | nil => rfl
  | cons hd tl ih =>
    obtain ⟨k0, v0⟩ := hd
    simp only [List.map_cons, List.mem_cons] at h
    push_neg at h
    simp only [alookup, if_neg (fun hh : k0 = k => h.1 hh.symm)]
    exact ih h.2

theorem alookup_treeDictUpdate_of_none {d new : List (String × URLTree)} {k : String}
    (h : alookup new k = none) : alookup (treeDictUpdate d new) k = alookup d k := by
  induction new generalizing d with
  | nil => rfl
  | cons hd tl ih =>
    obtain ⟨k0, v0⟩ := hd
    by_cases h0 : k0 = k
    · simp [alookup, h0] at h
    · rw [alookup, if_neg h0] at h
      show alookup (treeDictUpdate (aset d k0 v0) tl) k = alookup d k
      rw [ih h, alookup_aset_other d k0 k v0 (fun hh => h0 hh.symm)]

theorem alookup_treeDictUpdate_of_some {d new : List (String × URLTree)} {k : String}
    {v : URLTree} (hnodup : (new.map Prod.fst).Nodup) (h : alookup new k = some v) :
    alookup (treeDictUpdate d new) k = some v := by
  induction new generalizing d with
  | nil => cases h
  | cons hd tl ih =>
    obtain ⟨k0, v0⟩ := hd
    simp only [List.map_cons, List.nodup_cons] at hnodup
    by_cases h0 : k0 = k
    · rw [alookup, if_pos h0] at h
      injection h with hv
      subst hv
      subst h0
      have habs : alookup tl k0 = none :=
        alookup_eq_none_of_not_mem hnodup.1
      show alookup (treeDictUpdate (aset d k0 v0) tl) k0 = some v0
      rw [alookup_treeDictUpdate_of_none habs, alookup_aset_self]
    · rw [alookup, if_neg h0] at h
      exact ih hnodup.2 h

theorem alookup_treeDictDel_self (d : List (String × URLTree)) (k : String) :
    alookup (treeDictDel d k) k = none := by
  induction d with
  | nil => rfl
  | cons hd tl ih =>
    obtain ⟨k0, v0⟩ := hd
    by_cases h0 : k0 = k
    · simp only [treeDictDel, if_pos h0]
      exact ih
    · simp only [treeDictDel, if_neg h0]
      rw [alookup, if_neg h0]
      exact ih

theorem alookup_treeDictDel_other (d : List (String × URLTree)) (k k' : String)
    (h : k' ≠ k) : alookup (treeDictDel d k) k' = alookup d k' := by
  induction d with
  | nil => rfl
  | cons hd tl ih =>
    obtain ⟨k0, v0⟩ := hd
    by_cases h0 : k0 = k
    · have h1 : k0 ≠ k' := by
        rw [h0]
        exact fun hh => h hh.symm
      simp only [treeDictDel, if_pos h0]
      rw [alookup, if_neg h1]
      exact ih
    · simp only [treeDictDel, if_neg h0]
      by_cases h1 : k0 = k'
      · rw [alookup, if_pos h1, alookup, if_pos h1]
      · rw [alookup, if_neg h1, alookup, if_neg h1]
        exact ih

/-- C8 (confirmed): root flattening.  For every tree whose `prefs` scheme
node has a `ROOT` child which in turn has a child keyed `"child"`, the
flattening step makes that grandchild reachable directly under `prefs` at
the same key, and removes `ROOT` from the children of `prefs`.  (`ROOT`
children keys are unique, as in every Python dict.) -/
theorem c8_root_flattening (tree prefsScheme rootRoot child : URLTree)
    (hnodup : (rootRoot.urls.map Prod.fst).Nodup)
    (h1 : alookup tree.urls "prefs" = some prefsScheme)
    (h2 : alookup prefsScheme.urls "ROOT" = some rootRoot)
    (h3 : alookup rootRoot.urls "child" = some child) :
    ∃ prefs2 : URLTree,
      alookup (flattenRootSpecialCase tree).urls "prefs" = some prefs2 ∧
      alookup prefs2.urls "child" = some child ∧
      alookup prefs2.urls "ROOT" = none := by
  obtain ⟨troot, turls⟩ := tree
  obtain ⟨proot, purls⟩ := prefsScheme
  obtain ⟨rroot, rurls⟩ := rootRoot
  simp only [URLTree.urls] at h1 h2 h3 hnodup
  refine ⟨.mk proot (treeDictDel (treeDictUpdate purls rurls) "ROOT"), ?_, ?_, ?_⟩
  · simp only [flattenRootSpecialCase, URLTree.urls, URLTree.root, h1, h2]
    rw [alookup_aset_self]
  · simp only [URLTree.urls]
    rw [alookup_treeDictDel_other _ _ _ (by decide)]
    exact alookup_treeDictUpdate_of_some hnodup h3
  · simp only [URLTree.urls]
    exact alookup_treeDictDel_self _ _

/-- Witness for `c8_root_flattening` at a concrete tree. -/
theorem c8_witness :
    ((([("child", URLTree.mk none [])] : List (String × URLTree)).map Prod.fst).Nodup ∧
      alookup (URLTree.mk none
        [("prefs", .mk none [("ROOT", .mk none [("child", .mk none [])])])]).urls "prefs"
        = some (.mk none [("ROOT", .mk none [("child", .mk none [])])])) ∧
    ∃ prefs2 : URLTree,
      alookup (flattenRootSpecialCase (URLTree.mk none
        [("prefs", .mk none [("ROOT", .mk none [("child", .mk none [])])])])).urls "prefs"
        = some prefs2 ∧
      alookup prefs2.urls "child" = some (.mk none []) ∧
      alookup prefs2.urls "ROOT" = none :=
  ⟨⟨by decide, rfl⟩,
   c8_root_flattening
     (.mk none [("prefs", .mk none [("ROOT", .mk none [("child", .mk none [])])])])
     (.mk none [("ROOT", .mk none [("child", .mk none [])])])
     (.mk none [("child", .mk none [])])
     (.mk none [])
     (by decide) rfl rfl rfl⟩

/-! ## Claim C2: alias application without a matching owner -/

mutual
/-- When no node of the tree is owned by a record with url `u`, `add_alias`
never reaches its aliasing branch, so the tree comes back unchanged
(whether or not the walk ends in the `IndexError` of popping an exhausted
segment list). -/
theorem addAlias_unchanged_of_ownsNone (t : URLTree) (u a : String) (r : Bool)
    (ps : Option (List String)) (h : ownsNone u t = true) :
    (t.addAlias u a r ps).1 = t := by
  obtain ⟨root, urls⟩ := t
  simp only [ownsNone, Bool.and_eq_true] at h
  cases root with
  | some rc =>
    have hne : ¬ rc.url = u := by
      have := h.1
      simp at this
      exact this
    simp only [URLTree.addAlias, if_neg hne]
    cases hseg : ps.getD (get_path_segments u) with
    | nil => rfl
    | cons next restSegs =>
      simp only [hseg]
      cases hp : addAliasInChild urls next u a r restSegs with
      | mk urls2 raised =>
        have hl := addAliasInChild_unchanged_of_ownsNone urls next u a r restSegs h.2
        rw [hp] at hl
        exact congrArg (URLTree.mk _) (hl : urls2 = urls)
  | none =>
    simp only [URLTree.addAlias]
    cases hseg : ps.getD (get_path_segments u) with
    | nil => rfl
    | cons next restSegs =>
      simp only [hseg]
      cases hp : addAliasInChild urls next u a r restSegs with
      | mk urls2 raised =>
        have hl := addAliasInChild_unchanged_of_ownsNone urls next u a r restSegs h.2
        rw [hp] at hl
        exact congrArg (URLTree.mk _) (hl : urls2 = urls)

/-- List version of `addAlias_unchanged_of_ownsNone` for the child step. -/
theorem addAliasInChild_unchanged_of_ownsNone (urls : List (String × URLTree))
    (seg u a : String) (r : Bool) (restSegs : List String)
    (h : ownsNoneChildren u urls = true) :
    (addAliasInChild urls seg u a r restSegs).1 = urls := by
  match urls with
  | [] => rfl
  | (k, child) :: rest =>
    simp only [ownsNoneChildren, Bool.and_eq_true] at h
    by_cases hk : k = seg
    · simp only [addAliasInChild, if_pos hk]
      cases hp : child.addAlias u a r (some restSegs) with
      | mk child2 raised =>
        have hl := addAlias_unchanged_of_ownsNone child u a r (some restSegs) h.1
        rw [hp] at hl
        rw [(hl : child2 = child)]
    · simp only [addAliasInChild, if_neg hk]
      cases hp : addAliasInChild rest seg u a r restSegs with
      | mk rest2 raised =>
        have hl := addAliasInChild_unchanged_of_ownsNone rest seg u a r restSegs h.2
        rw [hp] at hl
        rw [(hl : rest2 = rest)]
end

/-- C2 (counterexample): the claim promises that the call "returns without
raising" whenever no node is owned by a matching record; but when the
walked path exists in the tree and ends at a node with no owning record —
exactly the case the claim singles out — the segment list is exhausted and
the `pop()` raises an `IndexError` (the source comments about gap URLs
admit this).  Concretely, on the tree with path `prefs → X` and no records
at all, `add_alias("prefs:root=X", "prefs:root=Y", False)` raises. -/
theorem c2_counterexample :
    ownsNone "prefs:root=X"
      (URLTree.mk none [("prefs", .mk none [("X", .mk none [])])]) = true ∧
    ((URLTree.mk none [("prefs", .mk none [("X", .mk none [])])]).addAlias
      "prefs:root=X" "prefs:root=Y" false none).2 = true := by
  constructor <;> decide

/-- C2 (corrected): when no node in the tree is owned by a record whose
url equals the original url, `add_alias` leaves the tree unchanged; it is
a silent no-op only when the walk stops at a missing child segment, while
a walk that exhausts its segment list (the walked path exists to its full
length) raises an `IndexError` — still leaving the tree unchanged. -/
theorem c2_add_alias_no_owner_leaves_tree_unchanged (t : URLTree)
    (u a : String) (r : Bool) (h : ownsNone u t = true) :
    (t.addAlias u a r none).1 = t :=
  addAlias_unchanged_of_ownsNone t u a r none h

/-- Witness for `c2_add_alias_no_owner_leaves_tree_unchanged` at a
concrete tree. -/
theorem c2_witness :
    ownsNone "prefs:root=Q" (URLTree.mk none [("prefs", .mk none [])]) = true ∧
    ((URLTree.mk none [("prefs", .mk none [])]).addAlias
      "prefs:root=Q" "prefs:root=Y" true none).1 =
      URLTree.mk none [("prefs", .mk none [])] :=
  ⟨by decide,
   c2_add_alias_no_owner_leaves_tree_unchanged
     (URLTree.mk none [("prefs", .mk none [])]) "prefs:root=Q" "prefs:root=Y" true
     (by decide)⟩

/-! ## Claim C5: recursive alias propagation -/

/-- Unfolding of `add_alias` on the node that owns the url, with the
recursive flag set: the record gets the alias and the children are
processed by the propagation loop. -/
theorem addAlias_found_unfold (r : RawSettingsURL) (tx : URLTree)
    (k aliasUrl : String) :
    ((URLTree.mk (some r) [(k, tx)]).addAlias r.url aliasUrl true none)
    = (let (urls2, raised) := addAliasChildren [(k, tx)] (get_path_segments r.url)
         (get_path_segments aliasUrl) true
       (.mk (some (r.addAliasUrl aliasUrl)) urls2, raised)) := by
  simp only [URLTree.addAlias, if_pos rfl]
  simp

/-- Unfolding of the propagation loop on a single child whose two rebuilt
URLs both succeed. -/
theorem addAliasChildren_single_unfold (tx : URLTree) (k childUrl childAlias : String)
    (segsU segsA : List String)
    (hcu : build_url (segsU ++ [k]) = some childUrl)
    (hca : build_url (segsA ++ [k]) = some childAlias) :
    addAliasChildren [(k, tx)] segsU segsA true
    = (let (child2, raised) := tx.addAlias childUrl childAlias true none
       ([(k, child2)], raised)) := by
  simp only [addAliasChildren, hcu, hca]
  cases hc : tx.addAlias childUrl childAlias true none with
  | mk child2 raised => cases raised <;> simp [addAliasChildren]

/-- The root record of the result of `add_alias` on the owning node: it is
set to the aliased record before the children are processed, so it carries
the alias regardless of what happens below. -/
theorem addAlias_found_root (txurls : List (String × URLTree)) (rc : RawSettingsURL)
    (a : String) :
    ((URLTree.mk (some rc) txurls).addAlias rc.url a true none).1.root
      = some (rc.addAliasUrl a) := by
  simp only [URLTree.addAlias, if_pos rfl]
  cases hc : addAliasChildren txurls (get_path_segments rc.url) (get_path_segments a) true with
  | mk urls2 raised => simp [URLTree.root]

/-- C5 (counterexample): the alias propagated to the child is not
`alias + "/x"`.  On the two-node tree `prefs:root=A` with child `x` owned
by `prefs:root=A&path=x`, `add_alias("prefs:root=A", "prefs:root=B",
recursive=True)` gives the child the alias `"prefs:root=B&path=x"` — the
URL rebuilt from the alias segments extended by `x` — which is not the
string `"prefs:root=B/x"` the claim asserts. -/
theorem c5_counterexample :
    (((URLTree.mk (some ⟨"prefs:root=A", "", "", [], none⟩)
        [("x", .mk (some ⟨"prefs:root=A&path=x", "", "", [], none⟩) [])]).addAlias
        "prefs:root=A" "prefs:root=B" true none).1.urls.map
          (fun p => (p.1, p.2.root.map RawSettingsURL.aliases))) =
      [("x", some (some ["prefs:root=B&path=x"]))] ∧
    "prefs:root=B/x" ∉ (["prefs:root=B&path=x"] : List String) := by
  constructor <;> decide

/-- C5 (corrected): recursive alias propagation, stated with the URL the
code actually attaches.  For a node owned by a record with url `u` and one
child under segment `k` owned by a record whose url is the rebuilt
`build_url(segments(u) + [k])` (as the tree insertion invariant provides),
after `add_alias(u, alias, recursive=True)` the child record carries the
alias `build_url(segments(alias) + [k])` — for a query-style alias with no
path yet this is `alias + "&path=" + k`, not `alias + "/" + k`. -/
theorem c5_alias_propagation (r rc : RawSettingsURL) (tx : URLTree)
    (k u aliasUrl childUrl childAlias : String)
    (hu : r.url = u)
    (hcu : build_url (get_path_segments u ++ [k]) = some childUrl)
    (hca : build_url (get_path_segments aliasUrl ++ [k]) = some childAlias)
    (htx : tx.root = some rc)
    (hrc : rc.url = childUrl) :
    ∃ tx2 rc2,
      alookup ((URLTree.mk (some r) [(k, tx)]).addAlias u aliasUrl true none).1.urls k
        = some tx2 ∧
      tx2.root = some rc2 ∧
      childAlias ∈ rc2.aliases.getD [] := by
  subst hu
  subst hrc
  rw [addAlias_found_unfold, addAliasChildren_single_unfold tx k rc.url childAlias _ _ hcu hca]
  have hroot := addAlias_found_root tx.urls rc childAlias
  have htx2 : URLTree.mk (some rc) tx.urls = tx := by
    obtain ⟨txroot, txurls⟩ := tx
    simp only [URLTree.root] at htx
    rw [htx]
    rfl
  rw [htx2] at hroot
  cases hc : tx.addAlias rc.url childAlias true none with
  | mk child2 raised =>
    rw [hc] at hroot
    refine ⟨child2, rc.addAliasUrl childAlias, ?_, hroot, ?_⟩
    · simp [alookup, URLTree.urls]
    · simp [RawSettingsURL.addAliasUrl]

/-- Witness for `c5_alias_propagation` at a concrete two-node tree. -/
theorem c5_witness :
    ((⟨"prefs:root=A", "", "", [], none⟩ : RawSettingsURL).url = "prefs:root=A" ∧
      build_url (get_path_segments "prefs:root=A" ++ ["x"]) = some "prefs:root=A&path=x" ∧
      build_url (get_path_segments "prefs:root=B" ++ ["x"]) = some "prefs:root=B&path=x" ∧
      (URLTree.mk (some ⟨"prefs:root=A&path=x", "", "", [], none⟩) []).root
        = some ⟨"prefs:root=A&path=x", "", "", [], none⟩ ∧
      (⟨"prefs:root=A&path=x", "", "", [], none⟩ : RawSettingsURL).url
        = "prefs:root=A&path=x") ∧
    ∃ tx2 rc2,
      alookup ((URLTree.mk (some ⟨"prefs:root=A", "", "", [], none⟩)
        [("x", .mk (some ⟨"prefs:root=A&path=x", "", "", [], none⟩) [])]).addAlias
        "prefs:root=A" "prefs:root=B" true none).1.urls "x"
        = some tx2 ∧
      tx2.root = some rc2 ∧
      "prefs:root=B&path=x" ∈ rc2.aliases.getD [] :=
  ⟨⟨rfl, by decide, by decide, rfl, rfl⟩,
   c5_alias_propagation ⟨"prefs:root=A", "", "", [], none⟩
     ⟨"prefs:root=A&path=x", "", "", [], none⟩
     (.mk (some ⟨"prefs:root=A&path=x", "", "", [], none⟩) [])
     "x" "prefs:root=A" "prefs:root=B" "prefs:root=A&path=x" "prefs:root=B&path=x"
     rfl (by decide) (by decide) rfl rfl⟩

/-! ## Claim C7: empty-label fatality -/

/-- Invariant of the per-record label-assignment loop: when it returns
without raising, every stored label entry has nonzero Python length,
provided the entries already stored do. -/
theorem assignLabelsToUrl_labels_nonempty
    {url url2 : RawSettingsURL} {ms : ManifestStrings}
    (hok : assignLabelsToUrl url ms = .ok url2)
    (hbase : ∀ p ∈ url.localized_labels, pyLenLS p.2 ≠ 0) :
    ∀ p ∈ url2.localized_labels, pyLenLS p.2 ≠ 0 := by
  induction ms generalizing url with
  | nil =>
    cases hok
    exact hbase
  | cons hd tl ih =>
    obtain ⟨locale, localeStrs⟩ := hd
    simp only [assignLabelsToUrl] at hok
    cases hl : alookup localeStrs url.label_id with
    | some entry =>
      simp only [hl] at hok
      by_cases hz : pyLenLS entry = 0
      · rw [if_pos hz] at hok
        cases hok
      · rw [if_neg hz] at hok
        refine ih hok ?_
        intro p hp
        rcases mem_aset hp with h1 | h1
        · exact hbase p h1
        · rw [h1]
          exact hz
    | none =>
      simp only [hl] at hok
      exact ih hok hbase

/-- C7 (corrected): the empty-label abort exists only in the bundle
label-assignment pass.  There, whenever that pass returns without raising,
every label entry it stored has nonzero Python length (an entry of length
zero — empty string or empty dict — raises instead). -/
theorem c7_bundle_label_assignment_aborts_on_empty
    (urls urls2 : List RawSettingsURL) (ms : ManifestStrings)
    (hok : assignLabels urls ms = .ok urls2)
    (hbase : ∀ r ∈ urls, ∀ p ∈ r.localized_labels, pyLenLS p.2 ≠ 0) :
    ∀ r ∈ urls2, ∀ p ∈ r.localized_labels, pyLenLS p.2 ≠ 0 := by
  induction urls generalizing urls2 with
  | nil =>
    cases hok
    intro r hr
    cases hr
  | cons hd tl ih =>
    simp only [assignLabels] at hok
    cases h1 : assignLabelsToUrl hd ms with
    | error e =>
      simp only [h1] at hok
      cases hok
    | ok hd2 =>
      simp only [h1] at hok
      cases h2 : assignLabels tl ms with
      | error e =>
        simp only [h2] at hok
        cases hok
      | ok tl2 =>
        simp only [h2] at hok
        cases hok
        intro r hr
        rcases List.mem_cons.mp hr with h3 | h3
        · rw [h3]
          exact assignLabelsToUrl_labels_nonempty h1
            (fun p hp => hbase hd (List.mem_cons_self hd tl) p hp)
        · exact ih tl2 h2 (fun r2 hr2 p hp => hbase r2 (List.mem_cons_of_mem hd hr2) p hp) r h3

/-- C7 (counterexample): override record construction performs no
emptiness check at all.  `add_override` with the inline label map
`{"en": ""}` returns a record holding the empty-string label for `en`
(whose resolved label is the empty string) instead of raising. -/
theorem c7_counterexample :
    add_override [] [] { url := "prefs:root=Z", label := some [("en", .str "")] } =
      some { url := "prefs:root=Z", label_id := "", manifest_path := "",
             localized_labels := [("en", .str "")], aliases := none } ∧
    sanitize_key (.str "") = "" ∧
    pyLenLS (.str "") = 0 := by
  refine ⟨rfl, rfl, rfl⟩

/-- Witness for `c7_bundle_label_assignment_aborts_on_empty` at a concrete
manifest. -/
theorem c7_witness :
    (assignLabels [⟨"prefs:root=WIFI", "WIFI_LABEL", "", [], none⟩]
        [("en", [("WIFI_LABEL", .str "Wi-Fi")])] =
      .ok [⟨"prefs:root=WIFI", "WIFI_LABEL", "", [("en", .str "Wi-Fi")], none⟩] ∧
      (∀ r ∈ [(⟨"prefs:root=WIFI", "WIFI_LABEL", "", [], none⟩ : RawSettingsURL)],
        ∀ p ∈ r.localized_labels, pyLenLS p.2 ≠ 0)) ∧
    ∀ r ∈ [(⟨"prefs:root=WIFI", "WIFI_LABEL", "", [("en", .str "Wi-Fi")], none⟩ :
        RawSettingsURL)],
      ∀ p ∈ r.localized_labels, pyLenLS p.2 ≠ 0 :=
  ⟨⟨rfl, by decide⟩,
   c7_bundle_label_assignment_aborts_on_empty
     [⟨"prefs:root=WIFI", "WIFI_LABEL", "", [], none⟩]
     [⟨"prefs:root=WIFI", "WIFI_LABEL", "", [("en", .str "Wi-Fi")], none⟩]
     [("en", [("WIFI_LABEL", .str "Wi-Fi")])]
     rfl (by decide)⟩

/-! ## Claim C6: missing-node discovery -/


mutual
/-- Characterization of `find_missing` generalized over the starting
segment path: when `build_url` succeeds on the path of every unowned node
of depth at least 2, the traversal raises nothing and yields exactly one
pair per such node, in preorder, whose URL is the rebuilt segment path. -/
theorem findMissing_eq (t : URLTree) (segs : List String)
    (h : ∀ p ∈ allNodes t segs, p.2.root.isNone = true → p.1.length > 1 →
      (build_url p.1).isSome = true) :
    t.findMissing segs =
      (((allNodes t segs).filter
          (fun p => p.2.root.isNone && decide (p.1.length > 1))).map
        (fun p => ((build_url p.1).getD "", p.2)), false) := by
  obtain ⟨root, urls⟩ := t
  have hch : ∀ p ∈ allNodesChildren urls segs, p.2.root.isNone = true → p.1.length > 1 →
      (build_url p.1).isSome = true := by
    intro p hp
    exact h p (by simp [allNodes, List.mem_cons]; right; exact hp)
  have hrec := findMissingChildren_eq urls segs hch
  simp only [allNodes, URLTree.findMissing, List.filter]
  by_cases hcond : (root.isNone && decide (segs.length > 1)) = true
  · have hhead := h (segs, .mk root urls) (by simp [allNodes])
    simp only [URLTree.root] at hhead
    simp only [Bool.and_eq_true, decide_eq_true_eq] at hcond
    have hsome := hhead hcond.1 hcond.2
    obtain ⟨u, hu⟩ := Option.isSome_iff_exists.mp hsome
    rw [if_pos (by simp [hcond])]
    simp only [hu]
    rw [hrec]
    have hcond2 : ((URLTree.mk root urls).root.isNone && decide (segs.length > 1)) = true := by
      simp [URLTree.root, hcond]
    simp only [URLTree.root, hcond.1, decide_eq_true hcond.2, Bool.and_self, List.map]
    simp [hu]
  · rw [if_neg hcond]
    rw [hrec]
    have : ((URLTree.mk root urls).root.isNone && decide (segs.length > 1)) = false := by
      simp only [URLTree.root]
      exact Bool.not_eq_true _ ▸ (by simpa using hcond)
    simp [this]

/-- Children-list version of `findMissing_eq`. -/
theorem findMissingChildren_eq (urls : List (String × URLTree)) (segs : List String)
    (h : ∀ p ∈ allNodesChildren urls segs, p.2.root.isNone = true → p.1.length > 1 →
      (build_url p.1).isSome = true) :
    findMissingChildren urls segs =
      (((allNodesChildren urls segs).filter
          (fun p => p.2.root.isNone && decide (p.1.length > 1))).map
        (fun p => ((build_url p.1).getD "", p.2)), false) := by
  match urls with
  | [] => rfl
  | (k, c) :: rest =>
    have h1 : ∀ p ∈ allNodes c (segs ++ [k]), p.2.root.isNone = true → p.1.length > 1 →
        (build_url p.1).isSome = true := by
      intro p hp
      exact h p (by simp [allNodesChildren]; left; exact hp)
    have h2 : ∀ p ∈ allNodesChildren rest segs, p.2.root.isNone = true → p.1.length > 1 →
        (build_url p.1).isSome = true := by
      intro p hp
      exact h p (by simp [allNodesChildren]; right; exact hp)
    have e1 := findMissing_eq c (segs ++ [k]) h1
    have e2 := findMissingChildren_eq rest segs h2
    simp only [findMissingChildren, allNodesChildren, e1, e2]
    simp [List.filter_append, List.map_append]
end

/-- C6 (confirmed): `find_missing()` yields exactly one (synthesized URL,
node) pair per tree node that has no owning record at depth at least 2 —
the tree root (depth 0) and the scheme nodes (depth 1, the nodes whose
path has length at most 1) are excluded — in preorder, where the URL is
`build_url` of the segment path from the root; every owned node is
omitted.  The hypothesis asks `build_url` to succeed on the synthesized
paths, which is exactly the condition for the generator itself not to
raise. -/
theorem c6_find_missing_spec (t : URLTree)
    (h : ∀ p ∈ allNodes t [], p.2.root.isNone = true → p.1.length > 1 →
      (build_url p.1).isSome = true) :
    t.findMissing [] =
      (((allNodes t []).filter
          (fun p => p.2.root.isNone && decide (p.1.length > 1))).map
        (fun p => ((build_url p.1).getD "", p.2)), false) :=
  findMissing_eq t [] h

/-- Witness for `c6_find_missing_spec` at a concrete tree with one owned
node, one unowned deep node and an unowned scheme node. -/
theorem c6_witness :
    (∀ p ∈ allNodes (URLTree.mk none [("prefs", .mk none
        [("A", .mk none [("b", .mk none [])]),
         ("C", .mk (some ⟨"prefs:root=C", "", "", [], none⟩) [])])]) [],
      p.2.root.isNone = true → p.1.length > 1 → (build_url p.1).isSome = true) ∧
    (URLTree.mk none [("prefs", .mk none
        [("A", .mk none [("b", .mk none [])]),
         ("C", .mk (some ⟨"prefs:root=C", "", "", [], none⟩) [])])]).findMissing [] =
      (((allNodes (URLTree.mk none [("prefs", .mk none
          [("A", .mk none [("b", .mk none [])]),
           ("C", .mk (some ⟨"prefs:root=C", "", "", [], none⟩) [])])]) []).filter
          (fun p => p.2.root.isNone && decide (p.1.length > 1))).map
        (fun p => ((build_url p.1).getD "", p.2)), false) :=
  ⟨by decide,
   c6_find_missing_spec
     (.mk none [("prefs", .mk none
        [("A", .mk none [("b", .mk none [])]),
         ("C", .mk (some ⟨"prefs:root=C", "", "", [], none⟩) [])])])
     (by decide)⟩

/-! ## Claim C4: merge never loses data -/

/-- Unfolding of `reaches` on a string value. -/
theorem reaches_str (s t : String) : reaches s (.str t) = (s == t) := by
  rw [reaches]

/-- Unfolding of `reaches` on a list value. -/
theorem reaches_list (s : String) (l : List String) : reaches s (.list l) = l.contains s := by
  rw [reaches]

/-- Unfolding of `reaches` on a dict with a `"(root)"` entry. -/
theorem reaches_dict_some {s : String} {d : List (String × Value)} {v0 : Value}
    (h : alookup d ROOT_STR = some v0) : reaches s (.dict d) = reaches s v0 := by
  rw [reaches.eq_def]
  split
  · rename_i h1
    cases h1
  · rename_i h1
    cases h1
  · rename_i d2 heq
    injection heq with hd
    subst hd
    split
    · rename_i v1 h1
      rw [h] at h1
      cases h1
      rfl
    · rename_i h1
      rw [h] at h1
      cases h1

/-- Unfolding of `reaches` on a dict without a `"(root)"` entry. -/
theorem reaches_dict_none {s : String} {d : List (String × Value)}
    (h : alookup d ROOT_STR = none) : reaches s (.dict d) = false := by
  rw [reaches.eq_def]
  split
  · rename_i h1
    cases h1
  · rename_i h1
    cases h1
  · rename_i d2 heq
    injection heq with hd
    subst hd
    split
    · rename_i v1 h1
      rw [h] at h1
      cases h1
    · rfl

/-- The equality guard of `merge_into`: equal values merge to themselves. -/
theorem mergeValue_eq_of_pyEq {e v : Value} (h : pyEq e v = true) : mergeValue e v = e := by
  rw [mergeValue.eq_def]
  simp [h]

/-- Merging two different strings stores their sorted two-element list. -/
theorem mergeValue_str_str {a b : String} (h : pyEq (.str a) (.str b) = false) :
    mergeValue (.str a) (.str b) = .list (pySort [a, b]) := by
  rw [mergeValue.eq_def]
  simp [h]

/-- Merging a string into a stored list appends and sorts. -/
theorem mergeValue_list_str (l : List String) (b : String) :
    mergeValue (.list l) (.str b) = .list (pySort (l ++ [b])) := by
  rw [mergeValue.eq_def]
  simp [show pyEq (.list l) (.str b) = false from rfl]

/-- Merging a string into a stored dict merges it under the self key. -/
theorem mergeValue_dict_str (d : List (String × Value)) (b : String) :
    mergeValue (.dict d) (.str b) = .dict (mergeInto d ROOT_STR (.str b)) := by
  rw [mergeValue.eq_def]
  simp [show pyEq (.dict d) (.str b) = false from rfl]

/-- A merged string is reachable in the combined value. -/
theorem reaches_mergeValue_self (e : Value) (v : String) :
    reaches v (mergeValue e (.str v)) = true := by
  match e with
  | .str a =>
    by_cases h : pyEq (.str a) (.str v) = true
    · rw [mergeValue_eq_of_pyEq h, reaches_str]
      have : a == v := by
        rw [pyEq.eq_def] at h
        simpa using h
      simp at this
      simp [this]
    · rw [mergeValue_str_str (Bool.not_eq_true _ ▸ (by simpa using h)), reaches_list]
      exact List.elem_eq_true_of_mem (mem_pySort.mpr (by simp))
  | .list l =>
    rw [mergeValue_list_str, reaches_list]
    exact List.elem_eq_true_of_mem (mem_pySort.mpr (by simp))
  | .dict d =>
    rw [mergeValue_dict_str]
    cases h : alookup d ROOT_STR with
    | some e0 =>
      rw [mergeInto_of_some _ h]
      rw [reaches_dict_some (alookup_aset_self d ROOT_STR (mergeValue e0 (.str v)))]
      exact reaches_mergeValue_self e0 v
    | none =>
      rw [mergeInto_of_none _ h]
      rw [reaches_dict_some (alookup_append_of_none h (Value.str v))]
      rw [reaches_str]
      simp
termination_by sizeV e
decreasing_by
  have := sizeV_of_alookup h
  simp only [sizeV]
  omega

/-- Merging a string preserves the reachability of every string already
reachable in the existing value. -/
theorem reaches_mergeValue_mono {e : Value} {s : String} (v : String)
    (hr : reaches s e = true) : reaches s (mergeValue e (.str v)) = true := by
  match e with
  | .str a =>
    by_cases h : pyEq (.str a) (.str v) = true
    · rw [mergeValue_eq_of_pyEq h]
      exact hr
    · rw [mergeValue_str_str (Bool.not_eq_true _ ▸ (by simpa using h)), reaches_list]
      rw [reaches_str] at hr
      simp at hr
      exact List.elem_eq_true_of_mem (mem_pySort.mpr (by simp [hr]))
  | .list l =>
    rw [mergeValue_list_str, reaches_list]
    rw [reaches_list] at hr
    have hm := List.mem_of_elem_eq_true hr
    exact List.elem_eq_true_of_mem (mem_pySort.mpr (by simp [hm]))
  | .dict d =>
    rw [mergeValue_dict_str]
    cases h : alookup d ROOT_STR with
    | some e0 =>
      rw [reaches_dict_some h] at hr
      rw [mergeInto_of_some _ h]
      rw [reaches_dict_some (alookup_aset_self d ROOT_STR (mergeValue e0 (.str v)))]
      exact reaches_mergeValue_mono v hr
    | none =>
      rw [reaches_dict_none h] at hr
      cases hr
termination_by sizeV e
decreasing_by
  have := sizeV_of_alookup h
  simp only [sizeV]
  omega

/-- After `merge_into(c, k, v)` with a string `v`, the key holds a value in
which `v` is reachable. -/
theorem mergeInto_reaches_self (c : List (String × Value)) (k : String) (v : String) :
    ∃ w, alookup (mergeInto c k (.str v)) k = some w ∧ reaches v w = true := by
  cases h : alookup c k with
  | some e =>
    refine ⟨mergeValue e (.str v), ?_, reaches_mergeValue_self e v⟩
    rw [mergeInto_of_some _ h]
    exact alookup_aset_self c k _
  | none =>
    refine ⟨.str v, ?_, by rw [reaches_str]; simp⟩
    rw [mergeInto_of_none _ h]
    exact alookup_append_of_none h _

/-- `merge_into` with a string preserves reachability at the key. -/
theorem mergeInto_reaches_mono {c : List (String × Value)} {k s : String} (v : String)
    (h : ∃ w, alookup c k = some w ∧ reaches s w = true) :
    ∃ w2, alookup (mergeInto c k (.str v)) k = some w2 ∧ reaches s w2 = true := by
  obtain ⟨w, hw, hr⟩ := h
  refine ⟨mergeValue w (.str v), ?_, reaches_mergeValue_mono v hr⟩
  rw [mergeInto_of_some _ hw]
  exact alookup_aset_self c k _

/-- A whole sequence of string merges preserves reachability at the key. -/
theorem foldl_mergeInto_reaches (k s : String) (vs : List String)
    {c : List (String × Value)}
    (h : ∃ w, alookup c k = some w ∧ reaches s w = true) :
    ∃ w, alookup (vs.foldl (fun acc t => mergeInto acc k (.str t)) c) k = some w ∧
      reaches s w = true := by
  induction vs generalizing c with
  | nil => exact h
  | cons hd tl ih => exact ih (mergeInto_reaches_mono hd h)

/-- Core of the no-loss property, with the container generalized for the
induction. -/
theorem c4_aux (k : String) (vs : List String) :
    ∀ (c : List (String × Value)), ∀ v ∈ vs, ∃ w,
      alookup (vs.foldl (fun acc t => mergeInto acc k (.str t)) c) k = some w ∧
      reaches v w = true := by
  induction vs with
  | nil =>
    intro c v hv
    cases hv
  | cons hd tl ih =>
    intro c v hv
    rcases List.mem_cons.mp hv with h1 | h1
    · subst h1
      exact foldl_mergeInto_reaches k v tl (mergeInto_reaches_self c k v)
    · exact ih (mergeInto c k (.str hd)) v h1

/-- C4 (confirmed): merge never loses data.  For every container, key, and
finite sequence of `merge_into` calls with pairwise distinct string values,
every one of those values is reachable afterwards in the value stored at
the key: as the value itself, as an element of a stored list, or inside
the nested sub-mappings under the reserved `"(root)"` self key. -/
theorem c4_merge_never_loses (c : List (String × Value)) (k : String) (vs : List String)
    (hdist : vs.Pairwise (· ≠ ·)) :
    ∀ v ∈ vs, ∃ w,
      alookup (vs.foldl (fun acc t => mergeInto acc k (.str t)) c) k = some w ∧
      reaches v w = true :=
  fun v hv => c4_aux k vs c v hv

/-- Witness for `c4_merge_never_loses` at a concrete merge sequence. -/
theorem c4_witness :
    (["b", "a"] : List String).Pairwise (· ≠ ·) ∧
    ∀ v ∈ (["b", "a"] : List String), ∃ w,
      alookup ((["b", "a"] : List String).foldl
        (fun acc t => mergeInto acc "k" (.str t)) []) "k" = some w ∧
      reaches v w = true :=
  ⟨by decide, c4_merge_never_loses [] "k" ["b", "a"] (by decide)⟩

end SettingsUrls
